import Mathlib

/-!
Verification development for the Abstractions change-tracking engine:
the entity/edge graph (`abstractions/ecs/entity.py`), the diff analyzer
(`abstractions/change_tracking/analyzer.py`) and the git-like history
manager and change observer (`abstractions/change_tracking/observer.py`).

Modelling conventions:
* Python `dict`s are insertion-ordered association lists (`dictGet`,
  `dictInsert` mirror `d.get(k)` / `d[k] = v`).
* Python `set`s are represented by duplicate-free lists; only membership
  of a set is ever observable in the claims, and where the source iterates
  a set in unspecified (hash-dependent) order the model either fixes an
  order (when the property proved is order-independent) or quantifies over
  all ways of picking an element (`ValidPick`, for `next(iter(s))`).
* UUIDs (entity ids, roots, lineages) are modelled as `Nat`; `str(uuid4())`
  commit ids are modelled by a fresh counter `next_id` carried in the
  manager state, and `datetime.now(timezone.utc)` timestamps by a strictly
  increasing counter `clock` (the wall clock is monotone).
* Component payloads (`Any` in Python) are an arbitrary type `V` with
  decidable (value) equality, matching Python `==`/`!=` on payloads.
* `deepcopy` is the identity on immutable Lean values.
-/

/-- Python `d.get(k)`: first (and, for a real dict, only) binding of `k`. -/
def dictGet {K A : Type} [DecidableEq K] : List (K × A) → K → Option A
  | [], _ => none
  | (k', v) :: rest, k => if k' = k then some v else dictGet rest k

/-- Python `d[k] = v`: replace the binding in place if present, else append. -/
def dictInsert {K A : Type} [DecidableEq K] : List (K × A) → K → A → List (K × A)
  | [], k, v => [(k, v)]
  | (k', v') :: rest, k, v =>
    if k' = k then (k, v) :: rest else (k', v') :: dictInsert rest k v

/-- Python `d.keys()`. -/
def dictKeys {K A : Type} (d : List (K × A)) : List K := d.map Prod.fst

/-- Python `s.add(k)` on a set represented as a duplicate-free list. -/
def setAdd {K : Type} [DecidableEq K] (s : List K) (k : K) : List K :=
  if k ∈ s then s else s ++ [k]

/-- Python set difference `set(a) - set(b)`, iterated in the order of `a`. -/
def listDiff {K : Type} [DecidableEq K] (a b : List K) : List K :=
  a.filter (fun x => decide (x ∉ b))

/-- Python set intersection `set(a) & set(b)`, iterated in the order of `a`. -/
def listInter {K : Type} [DecidableEq K] (a b : List K) : List K :=
  a.filter (fun x => decide (x ∈ b))

/-- Model of `EdgeType` from `abstractions/ecs/entity.py`: UML relationship kinds. -/
inductive EdgeType where
  | association
  | aggregation
  | composition
  | list_item
  | dict_value
  | set_member
  | tuple_item
deriving DecidableEq

/-- Model of `EntityEdge` from `abstractions/ecs/entity.py`. -/
structure EntityEdge where
  source_id : Nat
  target_id : Nat
  edge_type : EdgeType
  field_name : String
  container_index : Option Int := none
  container_key : Option String := none
deriving DecidableEq

/-- Model of `Entity` from `abstractions/ecs/entity.py`.  `created_at` (a wall-clock
timestamp never read by the core) and the mutable `tree_ref` back-pointer
(notification plumbing only, a cyclic reference with no value semantics)
are not part of the model; no claim refers to them. -/
structure Entity (V : Type) where
  ecs_id : Nat
  lineage_id : Nat
  root_ecs_id : Option Nat := none
  previous_ecs_id : Option Nat := none
  data : List (String × V) := []
deriving DecidableEq

/-- Model of `EntityTree` from `abstractions/ecs/entity.py`.  Observers are held as
opaque handles (`Nat`); the graph only ever appends to, removes from and
iterates over this list. -/
structure EntityTree (V : Type) where
  root_ecs_id : Nat
  lineage_id : Nat
  nodes : List (Nat × Entity V) := []
  edges : List ((Nat × Nat) × EntityEdge) := []
  observers : List Nat := []
deriving DecidableEq

/-- Payload part of the events in `abstractions/change_tracking/events.py`. -/
inductive TreeEventData (V : Type) where
  | nodeAdded (entity_id : Nat) (entity : Entity V)
  | nodeRemoved (entity_id : Nat) (entity : Entity V)
  | nodeModified (entity_id : Nat) (entity : Entity V) (field_name : String)
      (old_value new_value : V)
  | edgeAdded (edge_key : Nat × Nat) (edge : EntityEdge)
  | edgeRemoved (edge_key : Nat × Nat) (edge : EntityEdge)
  | edgeModified (edge_key : Nat × Nat) (old_edge new_edge : EntityEdge)
  | componentAdded (entity_id : Nat) (component_name : String) (component_value : V)
  | componentRemoved (entity_id : Nat) (component_name : String) (component_value : V)
  | componentModified (entity_id : Nat) (component_name : String) (old_value new_value : V)
deriving DecidableEq

/-- Model of `TreeEvent` from `abstractions/change_tracking/events.py`: payload plus
the `tree_id` slot filled in by `EntityTree._notify_observers` (events carry
a `timestamp` that no claim reads; it is not modelled). -/
structure TreeEvent (V : Type) where
  data : TreeEventData V
  tree_id : Option Nat := none
deriving DecidableEq

/-- Model of `ChangeType` from `abstractions/change_tracking/types.py`. -/
inductive ChangeType where
  | node_added
  | node_removed
  | node_modified
  | edge_added
  | edge_removed
  | edge_modified
  | component_added
  | component_removed
  | component_modified
deriving DecidableEq

/-- The values stored in a `TreeChange`'s `old_value`/`new_value` slots
(an `Entity`, an `EntityEdge` or a component payload in the source). -/
inductive ChangeValue (V : Type) where
  | entity (e : Entity V)
  | edge (e : EntityEdge)
  | component (v : V)
deriving DecidableEq

/-- Model of `TreeChange` from `abstractions/change_tracking/types.py`.  The free-form
`details` dictionary (human-readable rendering data only, per spec §3) and the
never-populated `timestamp` field are not modelled; no claim refers to them. -/
structure TreeChange (V : Type) where
  change_type : ChangeType
  entity_id : Option Nat := none
  edge_key : Option (Nat × Nat) := none
  component_name : Option String := none
  old_value : Option (ChangeValue V) := none
  new_value : Option (ChangeValue V) := none
deriving DecidableEq

/-- Model of `EntityTree.add_observer`. -/
def EntityTree.add_observer {V : Type} (t : EntityTree V) (o : Nat) : EntityTree V :=
  { t with observers := if o ∈ t.observers then t.observers else t.observers ++ [o] }

/-- Model of `EntityTree.remove_observer` (Python `list.remove` drops the first
occurrence). -/
def EntityTree.remove_observer {V : Type} (t : EntityTree V) (o : Nat) : EntityTree V :=
  { t with observers := if o ∈ t.observers then t.observers.erase o else t.observers }

/-- Model of `EntityTree._notify_observers`: stamps the event with the tree's root id,
then delivers it to every registered observer in order.  The result is the
list of (observer, event) deliveries performed. -/
def EntityTree.notify_observers {V : Type} (t : EntityTree V) (ev : TreeEvent V) :
    List (Nat × TreeEvent V) :=
  let ev := { ev with tree_id := some t.root_ecs_id }
  t.observers.map (fun o => (o, ev))

/-- Model of `EntityTree.add_node`: insert only when the id is absent, then notify.
Returns the updated tree and the deliveries made. -/
def EntityTree.add_node {V : Type} (t : EntityTree V) (entity : Entity V) :
    EntityTree V × List (Nat × TreeEvent V) :=
  if entity.ecs_id ∈ dictKeys t.nodes then (t, [])
  else
    let t := { t with nodes := dictInsert t.nodes entity.ecs_id entity }
    (t, t.notify_observers { data := TreeEventData.nodeAdded entity.ecs_id entity })

/-- Model of `EntityTree.remove_node`. -/
def EntityTree.remove_node {V : Type} (t : EntityTree V) (entity_id : Nat) :
    EntityTree V × List (Nat × TreeEvent V) × Option (Entity V) :=
  match dictGet t.nodes entity_id with
  | none => (t, [], none)
  | some entity =>
    let t := { t with nodes := t.nodes.filter (fun p => decide (p.1 ≠ entity_id)) }
    (t, t.notify_observers { data := TreeEventData.nodeRemoved entity_id entity }, some entity)

/-- Model of `EntityTree.add_edge`: keyed by `(source_id, target_id)`; insert only when
the key is absent, then notify. -/
def EntityTree.add_edge {V : Type} (t : EntityTree V) (edge : EntityEdge) :
    EntityTree V × List (Nat × TreeEvent V) :=
  let edge_key := (edge.source_id, edge.target_id)
  if edge_key ∈ dictKeys t.edges then (t, [])
  else
    let t := { t with edges := dictInsert t.edges edge_key edge }
    (t, t.notify_observers { data := TreeEventData.edgeAdded edge_key edge })

/-- Model of `EntityTree.remove_edge`. -/
def EntityTree.remove_edge {V : Type} (t : EntityTree V) (source_id target_id : Nat) :
    EntityTree V × List (Nat × TreeEvent V) × Option EntityEdge :=
  let edge_key := (source_id, target_id)
  match dictGet t.edges edge_key with
  | none => (t, [], none)
  | some edge =>
    let t := { t with edges := t.edges.filter (fun p => decide (p.1 ≠ edge_key)) }
    (t, t.notify_observers { data := TreeEventData.edgeRemoved edge_key edge }, some edge)

/-- Model of `TreeChangeAnalyzer._edges_differ`. -/
def edges_differ (edge1 edge2 : EntityEdge) : Bool :=
  decide (edge1.edge_type ≠ edge2.edge_type) ||
  decide (edge1.field_name ≠ edge2.field_name) ||
  decide (edge1.container_index ≠ edge2.container_index) ||
  decide (edge1.container_key ≠ edge2.container_key)

/-- Model of `TreeChangeAnalyzer._analyze_node_changes`: nodes only in `new` become
`NODE_ADDED`, nodes only in `old` become `NODE_REMOVED`.  The source iterates
Python set differences whose order is unspecified; the model iterates them in
the underlying dict's insertion order. -/
def analyze_node_changes {V : Type} (old_tree new_tree : EntityTree V) :
    List (TreeChange V) :=
  let old_nodes := dictKeys old_tree.nodes
  let new_nodes := dictKeys new_tree.nodes
  (listDiff new_nodes old_nodes).map (fun node_id =>
    { change_type := ChangeType.node_added, entity_id := some node_id,
      new_value := (dictGet new_tree.nodes node_id).map ChangeValue.entity })
  ++ (listDiff old_nodes new_nodes).map (fun node_id =>
    { change_type := ChangeType.node_removed, entity_id := some node_id,
      old_value := (dictGet old_tree.nodes node_id).map ChangeValue.entity })

/-- Model of `TreeChangeAnalyzer._analyze_edge_changes`: added, removed, then modified
edges (same key, differing properties). -/
def analyze_edge_changes {V : Type} (old_tree new_tree : EntityTree V) :
    List (TreeChange V) :=
  let old_edges := dictKeys old_tree.edges
  let new_edges := dictKeys new_tree.edges
  (listDiff new_edges old_edges).map (fun edge_key =>
    { change_type := ChangeType.edge_added, edge_key := some edge_key,
      new_value := (dictGet new_tree.edges edge_key).map ChangeValue.edge })
  ++ (listDiff old_edges new_edges).map (fun edge_key =>
    { change_type := ChangeType.edge_removed, edge_key := some edge_key,
      old_value := (dictGet old_tree.edges edge_key).map ChangeValue.edge })
  ++ (listInter old_edges new_edges).filterMap (fun edge_key =>
    match dictGet old_tree.edges edge_key, dictGet new_tree.edges edge_key with
    | some old_edge, some new_edge =>
      if edges_differ old_edge new_edge then
        some { change_type := ChangeType.edge_modified, edge_key := some edge_key,
               old_value := some (ChangeValue.edge old_edge),
               new_value := some (ChangeValue.edge new_edge) }
      else none
    | _, _ => none)

/-- Component diff for one node id present in both trees (the loop body of
`TreeChangeAnalyzer._analyze_component_changes`). -/
def component_changes_at {V : Type} [DecidableEq V]
    (old_tree new_tree : EntityTree V) (node_id : Nat) : List (TreeChange V) :=
  match dictGet old_tree.nodes node_id, dictGet new_tree.nodes node_id with
  | some old_entity, some new_entity =>
    let old_components := dictKeys old_entity.data
    let new_components := dictKeys new_entity.data
    (listDiff new_components old_components).map (fun component_name =>
      { change_type := ChangeType.component_added, entity_id := some node_id,
        component_name := some component_name,
        new_value := (dictGet new_entity.data component_name).map ChangeValue.component })
    ++ (listDiff old_components new_components).map (fun component_name =>
      { change_type := ChangeType.component_removed, entity_id := some node_id,
        component_name := some component_name,
        old_value := (dictGet old_entity.data component_name).map ChangeValue.component })
    ++ (listInter old_components new_components).filterMap (fun component_name =>
      match dictGet old_entity.data component_name,
            dictGet new_entity.data component_name with
      | some old_value, some new_value =>
        if old_value ≠ new_value then
          some { change_type := ChangeType.component_modified,
                 entity_id := some node_id,
                 component_name := some component_name,
                 old_value := some (ChangeValue.component old_value),
                 new_value := some (ChangeValue.component new_value) }
        else none
      | _, _ => none)
  | _, _ => []

/-- Model of `TreeChangeAnalyzer._analyze_component_changes`: component diff restricted
to node ids present in both trees. -/
def analyze_component_changes {V : Type} [DecidableEq V]
    (old_tree new_tree : EntityTree V) : List (TreeChange V) :=
  (listInter (dictKeys old_tree.nodes) (dictKeys new_tree.nodes)).flatMap
    (component_changes_at old_tree new_tree)

/-- Model of `TreeChangeAnalyzer.analyze_changes`: node changes, then edge changes,
then component changes. -/
def analyze_changes {V : Type} [DecidableEq V] (old_tree new_tree : EntityTree V) :
    List (TreeChange V) :=
  analyze_node_changes old_tree new_tree
  ++ analyze_edge_changes old_tree new_tree
  ++ analyze_component_changes old_tree new_tree

/-- The node ids carried by changes of one kind (used to state the node-diff
claims; `entity_id` is populated for node- and component-level changes). -/
def changed_node_ids {V : Type} (changes : List (TreeChange V)) (ct : ChangeType) :
    List Nat :=
  changes.filterMap (fun c => if c.change_type = ct then c.entity_id else none)

/-- Model of `TreeSnapshot` from `abstractions/change_tracking/observer.py`.
`deepcopy(tree)` is the identity on Lean values; `str(uuid4())` and
`datetime.now(timezone.utc)` are supplied by the manager's `next_id` /
`clock` counters (`commit_tree` is the only caller that constructs one). -/
structure TreeSnapshot (V : Type) where
  tree : EntityTree V
  commit_id : Nat
  parent_commits : List Nat := []
  timestamp : Nat
  events : List (TreeEvent V) := []
  message : String := ""
deriving DecidableEq

/-- Model of `TreeHistoryManager` state, plus the `next_id` fresh-commit-id supply
(modelling uniqueness of `uuid4`) and the `clock` timestamp supply
(modelling the monotone wall clock). -/
structure TreeHistoryManager (V : Type) where
  commits : List (Nat × TreeSnapshot V) := []
  branches : List (String × Nat) := []
  root_commits : List (Nat × List Nat) := []
  heads : List (Nat × Nat) := []
  lineage_commits : List (Nat × List Nat) := []
  next_id : Nat := 0
  clock : Nat := 0
deriving DecidableEq

/-- Model of `TreeHistoryManager.__init__`: all maps empty. -/
def initial_manager {V : Type} : TreeHistoryManager V := {}

/-- Model of `TreeHistoryManager.commit_tree`: always creates and stores a fresh
snapshot, then updates the branch pointer, root index, head and lineage
index.  `parent_commits or []` maps `None` to `[]`. -/
def TreeHistoryManager.commit_tree {V : Type} (m : TreeHistoryManager V)
    (tree : EntityTree V) (message : String) (parent_commits : Option (List Nat))
    (branch : String) : Nat × TreeHistoryManager V :=
  let snapshot : TreeSnapshot V :=
    { tree := tree, commit_id := m.next_id,
      parent_commits := parent_commits.getD [],
      timestamp := m.clock, events := [], message := message }
  (snapshot.commit_id,
   { m with
     commits := dictInsert m.commits snapshot.commit_id snapshot,
     branches := dictInsert m.branches branch snapshot.commit_id,
     root_commits := dictInsert m.root_commits tree.root_ecs_id
       (setAdd ((dictGet m.root_commits tree.root_ecs_id).getD []) snapshot.commit_id),
     heads := dictInsert m.heads tree.root_ecs_id snapshot.commit_id,
     lineage_commits := dictInsert m.lineage_commits tree.lineage_id
       (setAdd ((dictGet m.lineage_commits tree.lineage_id).getD []) snapshot.commit_id),
     next_id := m.next_id + 1,
     clock := m.clock + 1 })

/-- Model of `TreeHistoryManager.get_commit`. -/
def TreeHistoryManager.get_commit {V : Type} (m : TreeHistoryManager V)
    (commit_id : Nat) : Option (TreeSnapshot V) :=
  dictGet m.commits commit_id

/-- Model of `TreeHistoryManager.get_tree_at_commit`. -/
def TreeHistoryManager.get_tree_at_commit {V : Type} (m : TreeHistoryManager V)
    (commit_id : Nat) : Option (EntityTree V) :=
  (m.get_commit commit_id).map TreeSnapshot.tree

/-- Model of `TreeHistoryManager.get_commits_for_root`: `list(self.root_commits.get(r, set()))`
(Python lists the set in unspecified order; the model keeps insertion order). -/
def TreeHistoryManager.get_commits_for_root {V : Type} (m : TreeHistoryManager V)
    (root_ecs_id : Nat) : List Nat :=
  (dictGet m.root_commits root_ecs_id).getD []

/-- The parents used by one step of `TreeHistoryManager._get_ancestors`:
`snapshot.parent_commits` when `get_commit` finds the id, nothing otherwise. -/
def parent_commits_of {V : Type} (m : TreeHistoryManager V) (commit_id : Nat) :
    List Nat :=
  match dictGet m.commits commit_id with
  | some snapshot => snapshot.parent_commits
  | none => []

/-- Termination measure for the worklist of `_get_ancestors`: total weight of
the stored commit ids not yet visited. -/
def unvisited_weight {V : Type} (m : TreeHistoryManager V) (visited : List Nat) : Nat :=
  ∑ k ∈ (dictKeys m.commits).toFinset \ visited.toFinset,
    ((parent_commits_of m k).length + 1)

/-- The worklist loop of `TreeHistoryManager._get_ancestors`.  `visited` is the
Python `ancestors` set (represented as its insertion-order list; only its
membership is ever used).  Python pops the worklist from its tail; the model
pops from the head — the resulting set of visited ids is the set of ids
reachable through stored `parent_commits` links either way, and no claim
depends on an iteration order of this set. -/
def get_ancestors_go {V : Type} (m : TreeHistoryManager V) :
    List Nat → List Nat → List Nat
  | [], visited => visited
  | current :: rest, visited =>
    if h : current ∈ visited then get_ancestors_go m rest visited
    else get_ancestors_go m (rest ++ parent_commits_of m current) (visited ++ [current])
termination_by toVisit visited => toVisit.length + unvisited_weight m visited
decreasing_by
  · simp only [List.length_cons]
    omega
  · simp only [List.length_append, List.length_cons]
    have hstep : (parent_commits_of m current).length +
        unvisited_weight m (visited ++ [current]) < unvisited_weight m visited + 1 := by
      have hset : (visited ++ [current]).toFinset = insert current visited.toFinset := by
        ext x
        simp [List.mem_toFinset, or_comm]
      unfold unvisited_weight
      rw [hset, Finset.sdiff_insert]
      by_cases hk : current ∈ (dictKeys m.commits).toFinset
      · have hcur : current ∈ (dictKeys m.commits).toFinset \ visited.toFinset :=
          Finset.mem_sdiff.mpr ⟨hk, by simpa using h⟩
        rw [← Finset.sum_erase_add _ _ hcur]
        omega
      · have hnone : dictGet m.commits current = none := by
          have hgen : ∀ (d : List (Nat × TreeSnapshot V)), current ∉ dictKeys d →
              dictGet d current = none := by
            intro d
            induction d with
            | nil => intro _; rfl
            | cons p rest ih =>
              intro hnm
              obtain ⟨k', v⟩ := p
              rw [dictGet]
              have hne : k' ≠ current := by
                intro hEq
                exact hnm (by simp [dictKeys, hEq])
              rw [if_neg hne]
              exact ih (fun hmem => hnm (by simp [dictKeys] at hmem ⊢; exact Or.inr hmem))
          exact hgen _ (by simpa using hk)
        have hp : parent_commits_of m current = [] := by
          unfold parent_commits_of
          rw [hnone]
        have herase : ((dictKeys m.commits).toFinset \ visited.toFinset).erase current =
            (dictKeys m.commits).toFinset \ visited.toFinset := by
          apply Finset.erase_eq_of_not_mem
          intro hmem
          exact hk (Finset.mem_sdiff.mp hmem).1
        rw [herase, hp]
        simp
    omega

/-- Model of `TreeHistoryManager._get_ancestors`: every id reachable from `commit_id`
through stored `parent_commits` links, the queried id included (it is added to
the set before the commit lookup, stored or not). -/
def TreeHistoryManager.get_ancestors {V : Type} (m : TreeHistoryManager V)
    (commit_id : Nat) : List Nat :=
  get_ancestors_go m [commit_id] []

/-- A faithful model of Python's `next(iter(s))` on a non-empty set: some
element of the set, chosen in an unspecified (hash-dependent) way.  Claims
about `get_common_ancestor` quantify over every such choice function. -/
def ValidPick (pick : List Nat → Option Nat) : Prop :=
  (∀ l x, pick l = some x → x ∈ l) ∧ (∀ l : List Nat, l ≠ [] → (pick l).isSome)

/-- Model of `next(iter(s))` under one concrete iteration order (first element). -/
def pick_first (l : List Nat) : Option Nat := l.head?

/-- Model of `next(iter(s))` under another concrete iteration order (last element). -/
def pick_last : List Nat → Option Nat
  | [] => none
  | [x] => some x
  | _ :: y :: rest => pick_last (y :: rest)

/-- Model of `TreeHistoryManager.get_common_ancestor`: intersect the two ancestor sets
and return `next(iter(common))` — an arbitrary element — if non-empty. -/
def TreeHistoryManager.get_common_ancestor {V : Type} (m : TreeHistoryManager V)
    (pick : List Nat → Option Nat) (commit1 commit2 : Nat) : Option Nat :=
  let ancestors1 := m.get_ancestors commit1
  let ancestors2 := m.get_ancestors commit2
  let common := listInter ancestors1 ancestors2
  if common.isEmpty then none else pick common

/-- Model of `TreeHistoryManager.create_branch`: fails (leaving the state untouched)
when the name exists or the commit is unknown; otherwise records the branch. -/
def TreeHistoryManager.create_branch {V : Type} (m : TreeHistoryManager V)
    (branch_name : String) (from_commit : Nat) : Bool × TreeHistoryManager V :=
  if branch_name ∈ dictKeys m.branches then (false, m)
  else if from_commit ∉ dictKeys m.commits then (false, m)
  else (true, { m with branches := dictInsert m.branches branch_name from_commit })

/-- One insertion step of a timestamp-descending sort. -/
def insert_desc {V : Type} (s : TreeSnapshot V) :
    List (TreeSnapshot V) → List (TreeSnapshot V)
  | [] => [s]
  | t :: rest =>
    if t.timestamp ≤ s.timestamp then s :: t :: rest else t :: insert_desc s rest

/-- Model of `snapshots.sort(key=lambda s: s.timestamp, reverse=True)`: a permutation
of the input ordered by timestamp descending.  (Python's sort is additionally
stable; no claim depends on the relative order of equal timestamps, and in
every reachable history the timestamps are pairwise distinct.) -/
def sort_by_timestamp_desc {V : Type} (l : List (TreeSnapshot V)) :
    List (TreeSnapshot V) :=
  l.foldr insert_desc []

/-- Model of `TreeHistoryManager.get_commit_log`.  `if root_ecs_id:` is `False` exactly
for `None` (a `UUID` is always truthy), and `if limit:` is `False` both for
`None` and for `limit == 0`, so a zero limit performs no truncation. -/
def TreeHistoryManager.get_commit_log {V : Type} (m : TreeHistoryManager V)
    (root_ecs_id : Option Nat) (limit : Option Nat) : List (TreeSnapshot V) :=
  let commit_ids := match root_ecs_id with
    | some r => m.get_commits_for_root r
    | none => dictKeys m.commits
  let snapshots := commit_ids.filterMap (fun cid => dictGet m.commits cid)
  let snapshots := sort_by_timestamp_desc snapshots
  match limit with
  | none => snapshots
  | some l => if l = 0 then snapshots else snapshots.take l

/-- Model of `TreeChangeObserver` state: the owned history manager, the `auto_commit`
flag (the only constructor parameter — there is no threshold parameter), the
per-root pending-event buffers and the registered live trees. -/
structure TreeChangeObserver (V : Type) where
  history_manager : TreeHistoryManager V := {}
  auto_commit : Bool := false
  pending_events : List (Nat × List (TreeEvent V)) := []
  current_trees : List (Nat × EntityTree V) := []
deriving DecidableEq

/-- Model of `TreeChangeObserver.commit_current_state`: `None` when the root was never
registered (pending events are then left in place); otherwise commit the live
tree with the current head as sole parent (or none), attach the buffered
events to the snapshot and clear the buffer. -/
def TreeChangeObserver.commit_current_state {V : Type} (obs : TreeChangeObserver V)
    (root_ecs_id : Nat) (message : String) (branch : String) :
    Option Nat × TreeChangeObserver V :=
  match dictGet obs.current_trees root_ecs_id with
  | none => (none, obs)
  | some tree =>
    let parent_commits : List Nat :=
      match dictGet obs.history_manager.heads root_ecs_id with
      | some current_head => [current_head]
      | none => []
    let committed := obs.history_manager.commit_tree tree message (some parent_commits) branch
    let commit_id := committed.1
    let hm := committed.2
    match dictGet hm.commits commit_id with
    | some snapshot =>
      let events := (dictGet obs.pending_events root_ecs_id).getD []
      let snapshot := { snapshot with events := snapshot.events ++ events }
      let hm := { hm with commits := dictInsert hm.commits commit_id snapshot }
      (some commit_id,
       { obs with history_manager := hm,
                  pending_events := dictInsert obs.pending_events root_ecs_id [] })
    | none => (some commit_id, { obs with history_manager := hm })

/-- Model of `TreeChangeObserver._auto_commit_changes`: the threshold is the hard-coded
literal `10` in the source (`if len(events) >= 10`). -/
def TreeChangeObserver.auto_commit_changes {V : Type} (obs : TreeChangeObserver V)
    (tree_id : Nat) : TreeChangeObserver V :=
  let events := (dictGet obs.pending_events tree_id).getD []
  if 10 ≤ events.length then
    (obs.commit_current_state tree_id
      ("Auto-commit: " ++ toString events.length ++ " changes") "main").2
  else obs

/-- Model of `TreeChangeObserver.notify`: buffer the event under its `tree_id` (events
without one are dropped), then run the auto-commit check when enabled. -/
def TreeChangeObserver.notify {V : Type} (obs : TreeChangeObserver V)
    (event : TreeEvent V) : TreeChangeObserver V :=
  match event.tree_id with
  | none => obs
  | some tree_id =>
    let buffered := ((dictGet obs.pending_events tree_id).getD []) ++ [event]
    let obs := { obs with pending_events := dictInsert obs.pending_events tree_id buffered }
    if obs.auto_commit then obs.auto_commit_changes tree_id else obs

/-- Model of `TreeChangeObserver.register_tree`: record the live tree and make an
initial commit when the root has no commits yet. -/
def TreeChangeObserver.register_tree {V : Type} (obs : TreeChangeObserver V)
    (tree : EntityTree V) : TreeChangeObserver V :=
  let obs := { obs with current_trees := dictInsert obs.current_trees tree.root_ecs_id tree }
  if obs.history_manager.get_commits_for_root tree.root_ecs_id = [] then
    (obs.commit_current_state tree.root_ecs_id "Initial commit" "main").2
  else obs

/-- Run a sequence of `commit_tree` calls (tree, message, parents, branch). -/
def apply_commits {V : Type} (m : TreeHistoryManager V) :
    List (EntityTree V × String × Option (List Nat) × String) → TreeHistoryManager V
  | [] => m
  | (tree, message, parent_commits, branch) :: rest =>
    apply_commits (m.commit_tree tree message parent_commits branch).2 rest

/-- The manager states reachable through its two mutating operations,
`commit_tree` and `create_branch` (every other method of the class is a
read-only query). -/
inductive ReachableManager {V : Type} : TreeHistoryManager V → Prop where
  | init : ReachableManager initial_manager
  | commit (m : TreeHistoryManager V) (tree : EntityTree V) (message : String)
      (parent_commits : Option (List Nat)) (branch : String) :
      ReachableManager m →
      ReachableManager (m.commit_tree tree message parent_commits branch).2
  | new_branch (m : TreeHistoryManager V) (branch_name : String) (from_commit : Nat) :
      ReachableManager m →
      ReachableManager (m.create_branch branch_name from_commit).2

/-- Commit ids held in the store are all below the fresh-id supply. -/
def keys_fresh {V : Type} (m : TreeHistoryManager V) : Prop :=
  ∀ k ∈ dictKeys m.commits, k < m.next_id

/-- The history index invariant of spec §3: every commit id referenced from
`branches`, `root_commits`, `heads` or `lineage_commits` is a key of
`commits`, and per root the head is a member of the root's commit set, which
is non-empty exactly when a head exists. -/
def index_invariant {V : Type} (m : TreeHistoryManager V) : Prop :=
  (∀ p ∈ m.branches, p.2 ∈ dictKeys m.commits) ∧
  (∀ p ∈ m.root_commits, ∀ c ∈ p.2, c ∈ dictKeys m.commits) ∧
  (∀ p ∈ m.heads, p.2 ∈ dictKeys m.commits) ∧
  (∀ p ∈ m.lineage_commits, ∀ c ∈ p.2, c ∈ dictKeys m.commits) ∧
  (∀ r h, dictGet m.heads r = some h → h ∈ (dictGet m.root_commits r).getD []) ∧
  (∀ r s, dictGet m.root_commits r = some s → s ≠ [] → (dictGet m.heads r).isSome)

/-- The observer lists reachable through `add_observer` / `remove_observer`
(the only code touching `EntityTree.observers`), starting from the empty
default of the `EntityTree` constructor. -/
inductive ReachableObservers : List Nat → Prop where
  | nil : ReachableObservers []
  | add (l : List Nat) (o : Nat) : ReachableObservers l →
      ReachableObservers (if o ∈ l then l else l ++ [o])
  | remove (l : List Nat) (o : Nat) : ReachableObservers l →
      ReachableObservers (if o ∈ l then l.erase o else l)

/-- A concrete entity used in the witness scenarios. -/
def ex_entity : Entity Int :=
  { ecs_id := 1, lineage_id := 1, data := [("health", 100)] }

/-- A concrete edge used in the witness scenarios. -/
def ex_edge : EntityEdge :=
  { source_id := 0, target_id := 1, edge_type := EdgeType.composition,
    field_name := "child" }

/-- A concrete graph (root 0, one node, one edge, one observer). -/
def ex_tree : EntityTree Int :=
  { root_ecs_id := 0, lineage_id := 0,
    nodes := [(1, ex_entity)], edges := [((0, 1), ex_edge)], observers := [3] }

/-- An independently constructed copy of `ex_tree`: same nodes and edges,
different observer list. -/
def ex_tree_copy : EntityTree Int :=
  { root_ecs_id := 0, lineage_id := 0,
    nodes := [(1, ex_entity)], edges := [((0, 1), ex_edge)], observers := [] }

/-- One commit on top of the empty history (commit id 0, branch `main`). -/
def ex_manager1 : TreeHistoryManager Int :=
  (initial_manager.commit_tree ex_tree "first commit" none "main").2

/-- A second commit whose parent is commit 0 (commit id 1). -/
def ex_manager2 : TreeHistoryManager Int :=
  (ex_manager1.commit_tree ex_tree "second commit" (some [0]) "main").2

/-- A change observer with `auto_commit` enabled and nothing registered. -/
def ex_obs0 : TreeChangeObserver Int := { auto_commit := true }

/-- State of `ex_obs0` after registering `ex_tree` (makes the initial commit). -/
def ex_obs1 : TreeChangeObserver Int := ex_obs0.register_tree ex_tree

/-- A component-mutation event on `ex_tree`'s root, as stamped by
`_notify_observers`. -/
def ex_event : TreeEvent Int :=
  { data := TreeEventData.componentModified 1 "health" 100 50, tree_id := some 0 }

/-- State of `ex_obs1` after `n` deliveries of `ex_event`. -/
def ex_obs_after (n : Nat) : TreeChangeObserver Int :=
  (List.replicate n ex_event).foldl TreeChangeObserver.notify ex_obs1



theorem dictKeys_nil {K A : Type} : dictKeys ([] : List (K × A)) = [] := rfl

theorem dictKeys_cons {K A : Type} (k : K) (v : A) (rest : List (K × A)) :
    dictKeys ((k, v) :: rest) = k :: dictKeys rest := rfl

theorem dictGet_dictInsert_self {K A : Type} [DecidableEq K] (d : List (K × A))
    (k : K) (v : A) : dictGet (dictInsert d k v) k = some v := by
  induction d with
  | nil => simp [dictGet, dictInsert]
  | cons p rest ih =>
    obtain ⟨k', v'⟩ := p
    by_cases h : k' = k
    · subst h
      simp [dictGet, dictInsert]
    · simp [dictGet, dictInsert, h, ih]

theorem dictGet_dictInsert_ne {K A : Type} [DecidableEq K] (d : List (K × A))
    (k k' : K) (v : A) (h : k' ≠ k) :
    dictGet (dictInsert d k v) k' = dictGet d k' := by
  induction d with
  | nil => simp [dictGet, dictInsert, Ne.symm h]
  | cons p rest ih =>
    obtain ⟨k0, v0⟩ := p
    by_cases h0 : k0 = k
    · subst h0
      simp [dictGet, dictInsert, Ne.symm h]
    · simp only [dictInsert, if_neg h0, dictGet]
      by_cases h1 : k0 = k'
      · simp [h1]
      · simp [h1, ih]

theorem mem_dictKeys_iff_isSome {K A : Type} [DecidableEq K] (d : List (K × A))
    (k : K) : k ∈ dictKeys d ↔ (dictGet d k).isSome := by
  induction d with
  | nil => simp [dictKeys_nil, dictGet]
  | cons p rest ih =>
    obtain ⟨k', v⟩ := p
    rw [dictKeys_cons]
    by_cases h : k' = k
    · subst h
      simp [dictGet]
    · rw [dictGet, if_neg h]
      simp only [List.mem_cons, Ne.symm h, false_or, ih]

theorem dictGet_eq_none_of_not_mem {K A : Type} [DecidableEq K]
    {d : List (K × A)} {k : K} (h : k ∉ dictKeys d) : dictGet d k = none := by
  rw [mem_dictKeys_iff_isSome] at h
  cases hd : dictGet d k with
  | none => rfl
  | some v => rw [hd] at h; simp at h

theorem mem_of_dictGet {K A : Type} [DecidableEq K] {d : List (K × A)}
    {k : K} {v : A} (h : dictGet d k = some v) : (k, v) ∈ d := by
  induction d with
  | nil => simp [dictGet] at h
  | cons p rest ih =>
    obtain ⟨k', v'⟩ := p
    by_cases h0 : k' = k
    · subst h0
      rw [dictGet, if_pos rfl] at h
      have hv := Option.some.inj h
      subst hv
      exact List.mem_cons_self _ _
    · rw [dictGet, if_neg h0] at h
      exact List.mem_cons_of_mem _ (ih h)

theorem mem_dictKeys_dictInsert {K A : Type} [DecidableEq K] (d : List (K × A))
    (k a : K) (v : A) :
    a ∈ dictKeys (dictInsert d k v) ↔ a = k ∨ a ∈ dictKeys d := by
  induction d with
  | nil => simp [dictInsert, dictKeys_cons, dictKeys_nil]
  | cons p rest ih =>
    obtain ⟨k', v'⟩ := p
    by_cases h : k' = k
    · subst h
      rw [dictInsert, if_pos rfl, dictKeys_cons, dictKeys_cons]
      simp only [List.mem_cons]
      tauto
    · rw [dictInsert, if_neg h, dictKeys_cons, dictKeys_cons]
      simp only [List.mem_cons, ih]
      tauto

theorem mem_pairs_dictInsert {K A : Type} [DecidableEq K] {d : List (K × A)}
    {k : K} {v : A} {p : K × A} (h : p ∈ dictInsert d k v) :
    p = (k, v) ∨ p ∈ d := by
  induction d with
  | nil => simp [dictInsert] at h; exact Or.inl h
  | cons q rest ih =>
    obtain ⟨k', v'⟩ := q
    by_cases h0 : k' = k
    · subst h0
      rw [dictInsert, if_pos rfl] at h
      rcases List.mem_cons.mp h with h1 | h1
      · exact Or.inl h1
      · exact Or.inr (List.mem_cons_of_mem _ h1)
    · rw [dictInsert, if_neg h0] at h
      rcases List.mem_cons.mp h with h1 | h1
      · exact Or.inr (h1 ▸ List.mem_cons_self _ _)
      · rcases ih h1 with h2 | h2
        · exact Or.inl h2
        · exact Or.inr (List.mem_cons_of_mem _ h2)

theorem length_dictInsert_of_not_mem {K A : Type} [DecidableEq K]
    {d : List (K × A)} {k : K} (v : A) (h : k ∉ dictKeys d) :
    (dictInsert d k v).length = d.length + 1 := by
  induction d with
  | nil => simp [dictInsert]
  | cons p rest ih =>
    obtain ⟨k', v'⟩ := p
    rw [dictKeys_cons] at h
    simp only [List.mem_cons, not_or] at h
    have h1 : k' ≠ k := fun hEq => h.1 hEq.symm
    simp [dictInsert, h1, ih h.2]

theorem length_dictInsert_of_mem {K A : Type} [DecidableEq K]
    {d : List (K × A)} {k : K} (v : A) (h : k ∈ dictKeys d) :
    (dictInsert d k v).length = d.length := by
  induction d with
  | nil => simp [dictKeys_nil] at h
  | cons p rest ih =>
    obtain ⟨k', v'⟩ := p
    by_cases h0 : k' = k
    · subst h0
      simp [dictInsert]
    · rw [dictKeys_cons] at h
      rcases List.mem_cons.mp h with h1 | h1
      · exact absurd h1.symm h0
      · simp [dictInsert, h0, ih h1]

theorem mem_setAdd {K : Type} [DecidableEq K] (s : List K) (k a : K) :
    a ∈ setAdd s k ↔ a = k ∨ a ∈ s := by
  by_cases h : k ∈ s
  · simp only [setAdd, if_pos h]
    constructor
    · exact Or.inr
    · rintro (rfl | h1)
      · exact h
      · exact h1
  · simp only [setAdd, if_neg h, List.mem_append, List.mem_singleton]
    tauto

theorem mem_listDiff {K : Type} [DecidableEq K] (a b : List K) (x : K) :
    x ∈ listDiff a b ↔ x ∈ a ∧ x ∉ b := by
  simp [listDiff, List.mem_filter]

theorem mem_listInter {K : Type} [DecidableEq K] (a b : List K) (x : K) :
    x ∈ listInter a b ↔ x ∈ a ∧ x ∈ b := by
  simp [listInter, List.mem_filter]

theorem listDiff_eq_nil_of_subset {K : Type} [DecidableEq K] {a b : List K}
    (h : ∀ x ∈ a, x ∈ b) : listDiff a b = [] := by
  rw [listDiff, List.filter_eq_nil_iff]
  intro x hx
  simp [h x hx]

theorem pick_first_valid : ValidPick pick_first := by
  constructor
  · intro l x h
    cases l with
    | nil => simp [pick_first] at h
    | cons a rest =>
      simp [pick_first] at h
      simp [h]
  · intro l h
    cases l with
    | nil => exact absurd rfl h
    | cons a rest => simp [pick_first]

theorem pick_last_mem : ∀ (l : List Nat) (x : Nat), pick_last l = some x → x ∈ l := by
  intro l
  induction l with
  | nil => intro x h; simp [pick_last] at h
  | cons a rest ih =>
    intro x h
    cases rest with
    | nil =>
      simp only [pick_last] at h
      simp [Option.some.inj h]
    | cons b rest2 =>
      simp only [pick_last] at h
      exact List.mem_cons_of_mem _ (ih x h)

theorem pick_last_isSome : ∀ (l : List Nat), l ≠ [] → (pick_last l).isSome := by
  intro l
  induction l with
  | nil => intro h; exact absurd rfl h
  | cons a rest ih =>
    intro _
    cases rest with
    | nil => simp [pick_last]
    | cons b rest2 =>
      simp only [pick_last]
      exact ih (by simp)

theorem pick_last_valid : ValidPick pick_last :=
  ⟨pick_last_mem, pick_last_isSome⟩

theorem get_ancestors_go_nil {V : Type} (m : TreeHistoryManager V)
    (visited : List Nat) : get_ancestors_go m [] visited = visited := by
  rw [get_ancestors_go]

theorem get_ancestors_go_cons_mem {V : Type} (m : TreeHistoryManager V)
    (current : Nat) (rest visited : List Nat) (h : current ∈ visited) :
    get_ancestors_go m (current :: rest) visited = get_ancestors_go m rest visited := by
  rw [get_ancestors_go]
  simp [h]

theorem get_ancestors_go_cons_not_mem {V : Type} (m : TreeHistoryManager V)
    (current : Nat) (rest visited : List Nat) (h : current ∉ visited) :
    get_ancestors_go m (current :: rest) visited =
      get_ancestors_go m (rest ++ parent_commits_of m current) (visited ++ [current]) := by
  rw [get_ancestors_go]
  simp [h]

theorem subset_get_ancestors_go {V : Type} (m : TreeHistoryManager V) :
    ∀ (toVisit visited : List Nat), visited ⊆ get_ancestors_go m toVisit visited := by
  intro toVisit visited
  induction toVisit, visited using get_ancestors_go.induct m with
  | case1 visited =>
    rw [get_ancestors_go_nil]
    exact fun a ha => ha
  | case2 current rest visited h ih =>
    rw [get_ancestors_go_cons_mem m current rest visited h]
    exact ih
  | case3 current rest visited h ih =>
    rw [get_ancestors_go_cons_not_mem m current rest visited h]
    exact List.Subset.trans (List.subset_append_left _ _) ih

theorem mem_get_ancestors_self {V : Type} (m : TreeHistoryManager V) (c : Nat) :
    c ∈ m.get_ancestors c := by
  rw [TreeHistoryManager.get_ancestors,
      get_ancestors_go_cons_not_mem m c [] [] (List.not_mem_nil c)]
  exact subset_get_ancestors_go m _ _ (by simp)

theorem get_ancestors_unknown {V : Type} (m : TreeHistoryManager V) {x : Nat}
    (h : x ∉ dictKeys m.commits) : m.get_ancestors x = [x] := by
  have hp : parent_commits_of m x = [] := by
    rw [parent_commits_of, dictGet_eq_none_of_not_mem h]
  rw [TreeHistoryManager.get_ancestors,
      get_ancestors_go_cons_not_mem m x [] [] (List.not_mem_nil x), hp]
  simp [get_ancestors_go_nil]

theorem mem_insert_desc {V : Type} (s b : TreeSnapshot V) :
    ∀ (l : List (TreeSnapshot V)), b ∈ insert_desc s l ↔ b = s ∨ b ∈ l := by
  intro l
  induction l with
  | nil => simp [insert_desc]
  | cons t rest ih =>
    by_cases h : t.timestamp ≤ s.timestamp
    · simp [insert_desc, if_pos h, List.mem_cons]
    · simp only [insert_desc, if_neg h, List.mem_cons, ih]
      tauto

theorem length_insert_desc {V : Type} (s : TreeSnapshot V) :
    ∀ (l : List (TreeSnapshot V)), (insert_desc s l).length = l.length + 1 := by
  intro l
  induction l with
  | nil => simp [insert_desc]
  | cons t rest ih =>
    by_cases h : t.timestamp ≤ s.timestamp
    · simp [insert_desc, if_pos h]
    · simp [insert_desc, if_neg h, ih]

theorem pairwise_insert_desc {V : Type} (s : TreeSnapshot V) :
    ∀ (l : List (TreeSnapshot V)),
      l.Pairwise (fun a b => b.timestamp ≤ a.timestamp) →
      (insert_desc s l).Pairwise (fun a b => b.timestamp ≤ a.timestamp) := by
  intro l
  induction l with
  | nil => intro _; simp [insert_desc]
  | cons t rest ih =>
    intro hp
    rw [List.pairwise_cons] at hp
    by_cases h : t.timestamp ≤ s.timestamp
    · rw [insert_desc, if_pos h, List.pairwise_cons]
      refine ⟨?_, List.pairwise_cons.mpr hp⟩
      intro b hb
      rcases List.mem_cons.mp hb with rfl | hb2
      · exact h
      · exact Nat.le_trans (hp.1 b hb2) h
    · rw [insert_desc, if_neg h, List.pairwise_cons]
      refine ⟨?_, ih hp.2⟩
      intro b hb
      rcases (mem_insert_desc s b rest).mp hb with rfl | hb2
      · exact Nat.le_of_not_le h
      · exact hp.1 b hb2

theorem length_sort_by_timestamp_desc {V : Type} (l : List (TreeSnapshot V)) :
    (sort_by_timestamp_desc l).length = l.length := by
  induction l with
  | nil => rfl
  | cons t rest ih =>
    rw [sort_by_timestamp_desc, List.foldr_cons]
    rw [sort_by_timestamp_desc] at ih
    rw [length_insert_desc, ih, List.length_cons]

theorem pairwise_sort_by_timestamp_desc {V : Type} (l : List (TreeSnapshot V)) :
    (sort_by_timestamp_desc l).Pairwise (fun a b => b.timestamp ≤ a.timestamp) := by
  induction l with
  | nil => simp [sort_by_timestamp_desc]
  | cons t rest ih =>
    rw [sort_by_timestamp_desc, List.foldr_cons]
    rw [sort_by_timestamp_desc] at ih
    exact pairwise_insert_desc t _ ih

theorem length_filterMap_of_isSome {α β : Type} (f : α → Option β) :
    ∀ (l : List α), (∀ x ∈ l, (f x).isSome) → (l.filterMap f).length = l.length := by
  intro l
  induction l with
  | nil => intro _; rfl
  | cons a rest ih =>
    intro h
    cases hfa : f a with
    | none =>
      have := h a (List.mem_cons_self _ _)
      rw [hfa] at this
      simp at this
    | some b =>
      have h2 := ih (fun x hx => h x (List.mem_cons_of_mem _ hx))
      simp [List.filterMap_cons, hfa, h2]

theorem keys_fresh_initial {V : Type} : keys_fresh (initial_manager (V := V)) := by
  intro k hk
  simp [initial_manager, dictKeys_nil] at hk

theorem keys_fresh_commit_tree {V : Type} {m : TreeHistoryManager V}
    (hf : keys_fresh m) (tree : EntityTree V) (message : String)
    (parent_commits : Option (List Nat)) (branch : String) :
    keys_fresh (m.commit_tree tree message parent_commits branch).2 := by
  intro k hk
  simp only [TreeHistoryManager.commit_tree] at hk ⊢
  rcases (mem_dictKeys_dictInsert _ _ _ _).mp hk with rfl | hk2
  · omega
  · exact Nat.lt_trans (hf k hk2) (Nat.lt_succ_self _)

theorem keys_fresh_create_branch {V : Type} {m : TreeHistoryManager V}
    (hf : keys_fresh m) (branch_name : String) (from_commit : Nat) :
    keys_fresh (m.create_branch branch_name from_commit).2 := by
  rw [TreeHistoryManager.create_branch]
  by_cases h1 : branch_name ∈ dictKeys m.branches
  · simpa [if_pos h1] using hf
  · by_cases h2 : from_commit ∉ dictKeys m.commits
    · simpa [if_neg h1, if_pos h2] using hf
    · simpa [if_neg h1, if_neg h2] using hf

theorem commits_length_commit_tree {V : Type} {m : TreeHistoryManager V}
    (hf : keys_fresh m) (tree : EntityTree V) (message : String)
    (parent_commits : Option (List Nat)) (branch : String) :
    (m.commit_tree tree message parent_commits branch).2.commits.length =
      m.commits.length + 1 := by
  simp only [TreeHistoryManager.commit_tree]
  exact length_dictInsert_of_not_mem _ (fun hmem => Nat.lt_irrefl _ (hf _ hmem))

theorem apply_commits_commits_length {V : Type} :
    ∀ (ops : List (EntityTree V × String × Option (List Nat) × String))
      (m : TreeHistoryManager V), keys_fresh m →
      (apply_commits m ops).commits.length = m.commits.length + ops.length := by
  intro ops
  induction ops with
  | nil => intro m _; simp [apply_commits]
  | cons op rest ih =>
    intro m hf
    obtain ⟨tree, message, parent_commits, branch⟩ := op
    rw [apply_commits]
    rw [ih _ (keys_fresh_commit_tree hf tree message parent_commits branch),
        commits_length_commit_tree hf tree message parent_commits branch]
    simp [List.length_cons]
    omega

theorem get_commit_log_none_none_length {V : Type} (m : TreeHistoryManager V) :
    (m.get_commit_log none none).length = m.commits.length := by
  simp only [TreeHistoryManager.get_commit_log]
  rw [length_sort_by_timestamp_desc]
  rw [length_filterMap_of_isSome]
  · simp [dictKeys, List.length_map]
  · intro k hk
    exact (mem_dictKeys_iff_isSome m.commits k).mp hk

theorem changed_node_ids_append {V : Type} (a b : List (TreeChange V)) (ct : ChangeType) :
    changed_node_ids (a ++ b) ct = changed_node_ids a ct ++ changed_node_ids b ct := by
  simp [changed_node_ids, List.filterMap_append]

theorem changed_node_ids_eq_nil {V : Type} {changes : List (TreeChange V)}
    {ct : ChangeType} (h : ∀ c ∈ changes, c.change_type ≠ ct) :
    changed_node_ids changes ct = [] := by
  rw [changed_node_ids, List.filterMap_eq_nil_iff]
  intro c hc
  simp [h c hc]

theorem changed_node_ids_map_mk {V : Type} (ct : ChangeType) (l : List Nat)
    (mk : Nat → TreeChange V) (hct : ∀ i, (mk i).change_type = ct)
    (hid : ∀ i, (mk i).entity_id = some i) :
    changed_node_ids (l.map mk) ct = l := by
  induction l with
  | nil => rfl
  | cons a rest ih =>
    rw [List.map_cons, changed_node_ids, List.filterMap_cons]
    rw [changed_node_ids] at ih
    simp [hct, hid, ih]

theorem analyze_edge_changes_types {V : Type} (o n : EntityTree V) :
    ∀ c ∈ analyze_edge_changes o n,
      c.change_type = ChangeType.edge_added ∨ c.change_type = ChangeType.edge_removed ∨
        c.change_type = ChangeType.edge_modified := by
  intro c hc
  simp only [analyze_edge_changes, List.mem_append] at hc
  rcases hc with (hc | hc) | hc
  · rcases List.mem_map.mp hc with ⟨k, _, rfl⟩
    left; rfl
  · rcases List.mem_map.mp hc with ⟨k, _, rfl⟩
    right; left; rfl
  · rcases List.mem_filterMap.mp hc with ⟨k, _, hk⟩
    cases h1 : dictGet o.edges k with
    | none => rw [h1] at hk; simp at hk
    | some oe =>
      cases h2 : dictGet n.edges k with
      | none => rw [h1, h2] at hk; simp at hk
      | some ne2 =>
        rw [h1, h2] at hk
        by_cases hd : edges_differ oe ne2
        · simp only [if_pos hd] at hk
          rw [← Option.some.inj hk]
          right; right; rfl
        · simp [if_neg hd] at hk

theorem analyze_component_changes_types {V : Type} [DecidableEq V] (o n : EntityTree V) :
    ∀ c ∈ analyze_component_changes o n,
      c.change_type = ChangeType.component_added ∨
        c.change_type = ChangeType.component_removed ∨
        c.change_type = ChangeType.component_modified := by
  intro c hc
  simp only [analyze_component_changes, List.mem_flatMap] at hc
  obtain ⟨i, _, hci⟩ := hc
  rw [component_changes_at] at hci
  cases h1 : dictGet o.nodes i with
  | none => rw [h1] at hci; simp at hci
  | some oe =>
    cases h2 : dictGet n.nodes i with
    | none => rw [h1, h2] at hci; simp at hci
    | some ne2 =>
      rw [h1, h2] at hci
      simp only [List.mem_append] at hci
      rcases hci with (hc2 | hc2) | hc2
      · rcases List.mem_map.mp hc2 with ⟨name, _, rfl⟩
        left; rfl
      · rcases List.mem_map.mp hc2 with ⟨name, _, rfl⟩
        right; left; rfl
      · rcases List.mem_filterMap.mp hc2 with ⟨name, _, hk⟩
        cases h3 : dictGet oe.data name with
        | none => rw [h3] at hk; simp at hk
        | some ov =>
          cases h4 : dictGet ne2.data name with
          | none => rw [h3, h4] at hk; simp at hk
          | some nv =>
            rw [h3, h4] at hk
            by_cases h5 : ov ≠ nv
            · simp only [if_pos h5] at hk
              rw [← Option.some.inj hk]
              right; right; rfl
            · simp [if_neg h5] at hk

theorem analyze_node_changes_added_ids {V : Type} (o n : EntityTree V) :
    changed_node_ids (analyze_node_changes o n) ChangeType.node_added =
      listDiff (dictKeys n.nodes) (dictKeys o.nodes) := by
  rw [analyze_node_changes, changed_node_ids_append]
  rw [changed_node_ids_map_mk ChangeType.node_added _ _ (fun i => rfl) (fun i => rfl)]
  rw [changed_node_ids_eq_nil (by
    intro c hc
    rcases List.mem_map.mp hc with ⟨i, _, rfl⟩
    simp)]
  simp

theorem analyze_node_changes_removed_ids {V : Type} (o n : EntityTree V) :
    changed_node_ids (analyze_node_changes o n) ChangeType.node_removed =
      listDiff (dictKeys o.nodes) (dictKeys n.nodes) := by
  rw [analyze_node_changes, changed_node_ids_append]
  have hnil : changed_node_ids
      ((listDiff (dictKeys n.nodes) (dictKeys o.nodes)).map (fun node_id =>
        ({ change_type := ChangeType.node_added, entity_id := some node_id,
           new_value := (dictGet n.nodes node_id).map ChangeValue.entity } : TreeChange V)))
      ChangeType.node_removed = [] :=
    changed_node_ids_eq_nil (by
      intro c hc
      rcases List.mem_map.mp hc with ⟨i, _, rfl⟩
      simp)
  rw [hnil, changed_node_ids_map_mk ChangeType.node_removed _ _ (fun i => rfl) (fun i => rfl)]
  simp

theorem analyze_changes_added_ids {V : Type} [DecidableEq V] (o n : EntityTree V) :
    changed_node_ids (analyze_changes o n) ChangeType.node_added =
      listDiff (dictKeys n.nodes) (dictKeys o.nodes) := by
  rw [analyze_changes, changed_node_ids_append, changed_node_ids_append]
  rw [analyze_node_changes_added_ids]
  rw [changed_node_ids_eq_nil (by
    intro c hc
    rcases analyze_edge_changes_types o n c hc with h | h | h <;> simp [h])]
  rw [changed_node_ids_eq_nil (by
    intro c hc
    rcases analyze_component_changes_types o n c hc with h | h | h <;> simp [h])]
  simp

theorem analyze_changes_removed_ids {V : Type} [DecidableEq V] (o n : EntityTree V) :
    changed_node_ids (analyze_changes o n) ChangeType.node_removed =
      listDiff (dictKeys o.nodes) (dictKeys n.nodes) := by
  rw [analyze_changes, changed_node_ids_append, changed_node_ids_append]
  rw [analyze_node_changes_removed_ids]
  rw [changed_node_ids_eq_nil (by
    intro c hc
    rcases analyze_edge_changes_types o n c hc with h | h | h <;> simp [h])]
  rw [changed_node_ids_eq_nil (by
    intro c hc
    rcases analyze_component_changes_types o n c hc with h | h | h <;> simp [h])]
  simp

/-- C3: for all graphs, the node ids reported `NODE_ADDED` by
`analyze_changes` are exactly those in the new tree's node map and not the
old one's, the ids reported `NODE_REMOVED` exactly those in the old map and
not the new one's (the symmetric difference of the id sets, each side from
its own map); node identity is id-only — no structural comparison enters
the node diff. -/
theorem claim_C3 {V : Type} [DecidableEq V] (old_tree new_tree : EntityTree V)
    (x : Nat) :
    (x ∈ changed_node_ids (analyze_changes old_tree new_tree) ChangeType.node_added ↔
       x ∈ dictKeys new_tree.nodes ∧ x ∉ dictKeys old_tree.nodes) ∧
    (x ∈ changed_node_ids (analyze_changes old_tree new_tree) ChangeType.node_removed ↔
       x ∈ dictKeys old_tree.nodes ∧ x ∉ dictKeys new_tree.nodes) := by
  rw [analyze_changes_added_ids, analyze_changes_removed_ids]
  exact ⟨mem_listDiff _ _ _, mem_listDiff _ _ _⟩

theorem edges_differ_self (e : EntityEdge) : edges_differ e e = false := by
  simp [edges_differ]

/-- C4: diffing a graph against itself, or against any independently
constructed deep copy (same node map and same edge map — root, lineage and
observers may differ), yields the empty change list. -/
theorem claim_C4 {V : Type} [DecidableEq V] (old_tree new_tree : EntityTree V)
    (hn : old_tree.nodes = new_tree.nodes) (he : old_tree.edges = new_tree.edges) :
    analyze_changes old_tree new_tree = [] := by
  have h1 : analyze_node_changes old_tree new_tree = [] := by
    rw [analyze_node_changes, hn]
    rw [listDiff_eq_nil_of_subset (fun x hx => hx)]
    simp
  have h2 : analyze_edge_changes old_tree new_tree = [] := by
    rw [analyze_edge_changes, he]
    rw [listDiff_eq_nil_of_subset (fun x hx => hx)]
    simp only [List.map_nil, List.nil_append]
    rw [List.filterMap_eq_nil_iff]
    intro k _
    cases hg : dictGet new_tree.edges k with
    | none => simp [hg]
    | some e => simp [hg, edges_differ_self e]
  have h3 : analyze_component_changes old_tree new_tree = [] := by
    rw [analyze_component_changes, List.flatMap_eq_nil_iff]
    intro i _
    rw [component_changes_at, hn]
    cases hg : dictGet new_tree.nodes i with
    | none => simp [hg]
    | some e =>
      simp only [hg]
      rw [listDiff_eq_nil_of_subset (fun x hx => hx)]
      simp only [List.map_nil, List.nil_append]
      rw [List.filterMap_eq_nil_iff]
      intro name _
      cases hv : dictGet e.data name with
      | none => simp [hv]
      | some v => simp [hv]
  rw [analyze_changes, h1, h2, h3]
  rfl

/-- C4 witness: `ex_tree_copy` is an independently constructed copy of
`ex_tree` (equal node and edge maps, different observer list); their diff is
empty. -/
theorem claim_C4_witness : analyze_changes ex_tree ex_tree_copy = [] :=
  claim_C4 ex_tree ex_tree_copy rfl rfl

/-- C5: adding a node whose id is already a key of the node map, or an edge
whose `(source_id, target_id)` key is already a key of the edge map, is a
silent no-op — the tree is returned unchanged, no delivery is made to any
observer, and the (total) operation signals no error. -/
theorem claim_C5 {V : Type} (t : EntityTree V) (entity : Entity V)
    (edge : EntityEdge)
    (hn : entity.ecs_id ∈ dictKeys t.nodes)
    (he : (edge.source_id, edge.target_id) ∈ dictKeys t.edges) :
    t.add_node entity = (t, []) ∧ t.add_edge edge = (t, []) := by
  constructor
  · rw [EntityTree.add_node, if_pos hn]
  · simp [EntityTree.add_edge, he]

/-- C5 witness: duplicate insertions into `ex_tree` (node id 1 and edge key
`(0, 1)` both exist) leave it untouched and deliver nothing. -/
theorem claim_C5_witness :
    ex_tree.add_node ex_entity = (ex_tree, []) ∧
    ex_tree.add_edge ex_edge = (ex_tree, []) :=
  claim_C5 ex_tree ex_entity ex_edge (by decide) (by decide)

/-- C6: `create_branch` fails — returning `false` and the manager unchanged,
so no branch head is altered — when the name is taken or the commit unknown;
otherwise it succeeds and binds the new name to `from_commit`. -/
theorem claim_C6 {V : Type} (m : TreeHistoryManager V) (branch_name : String)
    (from_commit : Nat) :
    ((branch_name ∈ dictKeys m.branches ∨ from_commit ∉ dictKeys m.commits) →
       m.create_branch branch_name from_commit = (false, m)) ∧
    (branch_name ∉ dictKeys m.branches → from_commit ∈ dictKeys m.commits →
       m.create_branch branch_name from_commit =
         (true, { m with branches := dictInsert m.branches branch_name from_commit })) := by
  constructor
  · intro h
    rw [TreeHistoryManager.create_branch]
    by_cases h1 : branch_name ∈ dictKeys m.branches
    · rw [if_pos h1]
    · rcases h with h2 | h2
      · exact absurd h2 h1
      · rw [if_neg h1, if_pos h2]
  · intro h1 h2
    rw [TreeHistoryManager.create_branch, if_neg h1, if_neg (not_not_intro h2)]

/-- C6 witness: on `ex_manager1` (one commit `0`, branch `main`), re-creating
`main` fails without touching the state, while creating `dev` from commit 0
succeeds. -/
theorem claim_C6_witness :
    ex_manager1.create_branch "main" 0 = (false, ex_manager1) ∧
    ex_manager1.create_branch "dev" 0 =
      (true, { ex_manager1 with branches := dictInsert ex_manager1.branches "dev" 0 }) :=
  ⟨(claim_C6 ex_manager1 "main" 0).1 (Or.inl (by decide)),
   (claim_C6 ex_manager1 "dev" 0).2 (by decide) (by decide)⟩

/-- C9: for an id `x` that is not a stored commit id, `_get_ancestors`
still puts `x` itself into the ancestor set before looking it up, so
`get_common_ancestor(x, x)` intersects `{x}` with `{x}` and returns `x`
(whatever element the set iteration yields) rather than absent; two distinct
unknown ids have disjoint singleton ancestor sets and yield absent. -/
theorem claim_C9 {V : Type} (m : TreeHistoryManager V) (pick : List Nat → Option Nat)
    (hpick : ValidPick pick) (x y : Nat)
    (hx : x ∉ dictKeys m.commits) (hy : y ∉ dictKeys m.commits) (hxy : x ≠ y) :
    m.get_common_ancestor pick x x = some x ∧
    m.get_common_ancestor pick x y = none := by
  have hax : m.get_ancestors x = [x] := get_ancestors_unknown m hx
  have hay : m.get_ancestors y = [y] := get_ancestors_unknown m hy
  constructor
  · simp only [TreeHistoryManager.get_common_ancestor, hax]
    have hcommon : listInter [x] [x] = [x] := by simp [listInter]
    rw [hcommon]
    rw [if_neg (by simp)]
    have h1 := hpick.2 [x] (by simp)
    cases hp : pick [x] with
    | none => rw [hp] at h1; simp at h1
    | some r =>
      have hr := hpick.1 [x] r hp
      simp only [List.mem_singleton] at hr
      rw [hr]
  · simp only [TreeHistoryManager.get_common_ancestor, hax, hay]
    have hcommon : listInter [x] [y] = [] := by simp [listInter, hxy]
    rw [hcommon]
    simp

/-- C9 witness: on `ex_manager2` (stored commit ids 0 and 1), the unknown ids
5 and 7 behave as claimed. -/
theorem claim_C9_witness :
    ex_manager2.get_common_ancestor pick_first 5 5 = some 5 ∧
    ex_manager2.get_common_ancestor pick_first 5 7 = none :=
  claim_C9 ex_manager2 pick_first pick_first_valid 5 7 (by decide) (by decide)
    (by decide)

/-- C1 amended: for a stored commit `c`, `get_common_ancestor(c, c)` never
returns absent and always returns a member of `c`'s ancestor set — the two
ancestor sets being computed by the same call on the same argument and hence
equal — and that set contains `c`; but the returned element is
`next(iter(...))` of the whole ancestor set, so it is only guaranteed to be
`c` itself when the ancestor set is the singleton `{c}`. -/
theorem claim_C1_amended {V : Type} (m : TreeHistoryManager V)
    (pick : List Nat → Option Nat) (hpick : ValidPick pick) (c : Nat)
    (hc : c ∈ dictKeys m.commits) :
    c ∈ m.get_ancestors c ∧
    ∃ r, m.get_common_ancestor pick c c = some r ∧ r ∈ m.get_ancestors c := by
  have hmem : c ∈ m.get_ancestors c := mem_get_ancestors_self m c
  refine ⟨hmem, ?_⟩
  simp only [TreeHistoryManager.get_common_ancestor]
  have hne : listInter (m.get_ancestors c) (m.get_ancestors c) ≠ [] := by
    intro hEq
    have hin : c ∈ listInter (m.get_ancestors c) (m.get_ancestors c) :=
      (mem_listInter _ _ _).mpr ⟨hmem, hmem⟩
    rw [hEq] at hin
    simp at hin
  have hempty : ¬((listInter (m.get_ancestors c) (m.get_ancestors c)).isEmpty = true) := by
    simpa [List.isEmpty_iff] using hne
  rw [if_neg hempty]
  have h1 := hpick.2 _ hne
  cases hp : pick (listInter (m.get_ancestors c) (m.get_ancestors c)) with
  | none => rw [hp] at h1; simp at h1
  | some r =>
    exact ⟨r, rfl, ((mem_listInter _ _ _).mp (hpick.1 _ r hp)).1⟩

/-- C1 witness: the amended statement at the root commit 0 of `ex_manager1`
under the head-of-list iteration order. -/
theorem claim_C1_witness :
    0 ∈ ex_manager1.get_ancestors 0 ∧
    ∃ r, ex_manager1.get_common_ancestor pick_first 0 0 = some r ∧
      r ∈ ex_manager1.get_ancestors 0 :=
  claim_C1_amended ex_manager1 pick_first pick_first_valid 0 (by decide)

theorem ex_manager2_ancestors_one : ex_manager2.get_ancestors 1 = [1, 0] := by
  rw [TreeHistoryManager.get_ancestors]
  rw [get_ancestors_go_cons_not_mem _ _ _ _ (List.not_mem_nil 1)]
  have hp1 : parent_commits_of ex_manager2 1 = [0] := by decide
  rw [List.nil_append, hp1]
  rw [get_ancestors_go_cons_not_mem _ _ _ _ (by decide)]
  have hp0 : parent_commits_of ex_manager2 0 = [] := by decide
  rw [hp0]
  simp [get_ancestors_go_nil]

/-- C1 counterexample: in `ex_manager2`, commit 1 is stored with parent 0, so
its ancestor set is `{1, 0}`; `next(iter(common))` iterates a Python set in
unspecified hash order, and under the legitimate order that yields the last
inserted element the call `get_common_ancestor(1, 1)` returns the parent 0,
not 1 — refuting "returns c itself". -/
theorem claim_C1_counterexample :
    ValidPick pick_last ∧ 1 ∈ dictKeys ex_manager2.commits ∧
    ex_manager2.get_common_ancestor pick_last 1 1 = some 0 ∧
    ex_manager2.get_common_ancestor pick_last 1 1 ≠ some 1 := by
  have hco : ex_manager2.get_common_ancestor pick_last 1 1 = some 0 := by
    simp only [TreeHistoryManager.get_common_ancestor, ex_manager2_ancestors_one]
    decide
  exact ⟨pick_last_valid, by decide, hco, by rw [hco]; simp⟩

theorem reachable_observers_nodup : ∀ (l : List Nat), ReachableObservers l → l.Nodup := by
  intro l h
  induction h with
  | nil => exact List.nodup_nil
  | add l2 o h2 ih =>
    by_cases hm : o ∈ l2
    · simpa [hm] using ih
    · simp only [if_neg hm]
      refine List.Nodup.append ih (List.nodup_singleton o) ?_
      intro a ha hb
      rw [List.mem_singleton] at hb
      exact hm (hb ▸ ha)
  | remove l2 o h2 ih =>
    by_cases hm : o ∈ l2
    · simp only [if_pos hm]
      exact ih.erase o
    · simpa [hm] using ih

/-- C10: any observer list reachable through `add_observer`/`remove_observer`
is duplicate-free (`add_observer` on a registered observer is a no-op), so
`_notify_observers` delivers an event to a registered observer exactly once
and to an unregistered one not at all. -/
theorem claim_C10 {V : Type} (t : EntityTree V) (ev : TreeEvent V) (o : Nat)
    (hreach : ReachableObservers t.observers) :
    t.observers.Nodup ∧
    (o ∈ t.observers → t.add_observer o = t) ∧
    ((t.notify_observers ev).map Prod.fst).count o =
      if o ∈ t.observers then 1 else 0 := by
  have hnd := reachable_observers_nodup _ hreach
  refine ⟨hnd, ?_, ?_⟩
  · intro hm
    rw [EntityTree.add_observer, if_pos hm]
  · have hmap : (t.notify_observers ev).map Prod.fst = t.observers := by
      simp [EntityTree.notify_observers, Function.comp_def]
    rw [hmap]
    by_cases hm : o ∈ t.observers
    · rw [if_pos hm]
      exact List.count_eq_one_of_mem hnd hm
    · rw [if_neg hm]
      exact List.count_eq_zero_of_not_mem hm

/-- C10 witness: `ex_tree`'s observer list `[3]` is reachable (one
`add_observer` call on the empty default), is duplicate-free, and observer 3
receives exactly one delivery. -/
theorem claim_C10_witness :
    ex_tree.observers.Nodup ∧
    (3 ∈ ex_tree.observers → ex_tree.add_observer 3 = ex_tree) ∧
    ((ex_tree.notify_observers ex_event).map Prod.fst).count 3 =
      if 3 ∈ ex_tree.observers then 1 else 0 :=
  claim_C10 ex_tree ex_event 3 (by
    have h := ReachableObservers.add [] 3 ReachableObservers.nil
    simpa [ex_tree] using h)

/-- C8: every manager state reachable through the two mutating operations
(`commit_tree`, `create_branch`; all other methods are read-only queries)
satisfies the history index invariant: each commit id referenced from
`branches`, `root_commits`, `heads` or `lineage_commits` is a key of
`commits`, each recorded head belongs to its root's commit set, and a root
with a non-empty commit set has a head. -/
theorem claim_C8 {V : Type} (m : TreeHistoryManager V)
    (hreach : ReachableManager m) : index_invariant m := by
  induction hreach with
  | init =>
    rw [index_invariant]
    refine ⟨?_, ?_, ?_, ?_, ?_, ?_⟩
    · intro p hp; simp [initial_manager] at hp
    · intro p hp; simp [initial_manager] at hp
    · intro p hp; simp [initial_manager] at hp
    · intro p hp; simp [initial_manager] at hp
    · intro r h hg; simp [initial_manager, dictGet] at hg
    · intro r s hg hs; simp [initial_manager, dictGet] at hg
  | commit m2 tree message parent_commits branch hr ih =>
    rw [index_invariant] at ih
    obtain ⟨ih1, ih2, ih3, ih4, ih5, ih6⟩ := ih
    rw [index_invariant]
    simp only [TreeHistoryManager.commit_tree]
    refine ⟨?_, ?_, ?_, ?_, ?_, ?_⟩
    · intro p hp
      rcases mem_pairs_dictInsert hp with rfl | hp2
      · exact (mem_dictKeys_dictInsert _ _ _ _).mpr (Or.inl rfl)
      · exact (mem_dictKeys_dictInsert _ _ _ _).mpr (Or.inr (ih1 p hp2))
    · intro p hp c hc
      rcases mem_pairs_dictInsert hp with rfl | hp2
      · rcases (mem_setAdd _ _ _).mp hc with rfl | hc2
        · exact (mem_dictKeys_dictInsert _ _ _ _).mpr (Or.inl rfl)
        · cases hg : dictGet m2.root_commits tree.root_ecs_id with
          | none => rw [hg] at hc2; simp at hc2
          | some s =>
            rw [hg] at hc2
            simp only [Option.getD_some] at hc2
            exact (mem_dictKeys_dictInsert _ _ _ _).mpr
              (Or.inr (ih2 _ (mem_of_dictGet hg) c hc2))
      · exact (mem_dictKeys_dictInsert _ _ _ _).mpr (Or.inr (ih2 p hp2 c hc))
    · intro p hp
      rcases mem_pairs_dictInsert hp with rfl | hp2
      · exact (mem_dictKeys_dictInsert _ _ _ _).mpr (Or.inl rfl)
      · exact (mem_dictKeys_dictInsert _ _ _ _).mpr (Or.inr (ih3 p hp2))
    · intro p hp c hc
      rcases mem_pairs_dictInsert hp with rfl | hp2
      · rcases (mem_setAdd _ _ _).mp hc with rfl | hc2
        · exact (mem_dictKeys_dictInsert _ _ _ _).mpr (Or.inl rfl)
        · cases hg : dictGet m2.lineage_commits tree.lineage_id with
          | none => rw [hg] at hc2; simp at hc2
          | some s =>
            rw [hg] at hc2
            simp only [Option.getD_some] at hc2
            exact (mem_dictKeys_dictInsert _ _ _ _).mpr
              (Or.inr (ih4 _ (mem_of_dictGet hg) c hc2))
      · exact (mem_dictKeys_dictInsert _ _ _ _).mpr (Or.inr (ih4 p hp2 c hc))
    · intro r h hg
      by_cases hr2 : r = tree.root_ecs_id
      · subst hr2
        rw [dictGet_dictInsert_self] at hg
        rw [dictGet_dictInsert_self, Option.getD_some, ← Option.some.inj hg]
        exact (mem_setAdd _ _ _).mpr (Or.inl rfl)
      · rw [dictGet_dictInsert_ne _ _ _ _ hr2] at hg
        rw [dictGet_dictInsert_ne _ _ _ _ hr2]
        exact ih5 r h hg
    · intro r s hg hs
      by_cases hr2 : r = tree.root_ecs_id
      · subst hr2
        rw [dictGet_dictInsert_self]
        rfl
      · rw [dictGet_dictInsert_ne _ _ _ _ hr2] at hg
        rw [dictGet_dictInsert_ne _ _ _ _ hr2]
        exact ih6 r s hg hs
  | new_branch m2 branch_name from_commit hr ih =>
    rw [index_invariant] at ih
    obtain ⟨ih1, ih2, ih3, ih4, ih5, ih6⟩ := ih
    rw [TreeHistoryManager.create_branch]
    by_cases h1 : branch_name ∈ dictKeys m2.branches
    · rw [if_pos h1]
      exact ⟨ih1, ih2, ih3, ih4, ih5, ih6⟩
    · by_cases h2 : from_commit ∉ dictKeys m2.commits
      · rw [if_neg h1, if_pos h2]
        exact ⟨ih1, ih2, ih3, ih4, ih5, ih6⟩
      · rw [if_neg h1, if_neg h2]
        have h3 : from_commit ∈ dictKeys m2.commits := not_not.mp h2
        rw [index_invariant]
        refine ⟨?_, ih2, ih3, ih4, ih5, ih6⟩
        intro p hp
        rcases mem_pairs_dictInsert hp with rfl | hp2
        · exact h3
        · exact ih1 p hp2

/-- C8 witness: the invariant holds at the reachable one-commit state
`ex_manager1`. -/
theorem claim_C8_witness : index_invariant ex_manager1 :=
  claim_C8 ex_manager1
    (ReachableManager.commit initial_manager ex_tree "first commit" none "main"
      ReachableManager.init)

/-- C7 amended: starting from the fresh manager, any `N` `commit_tree` calls
each succeed and store a new snapshot (no deduplication), and
`get_commit_log` with no root filter returns exactly `N` snapshots in
timestamp-descending order; a *non-zero* limit truncates to the first
`limit` of them.  (A limit of 0 is falsy in Python — `if limit:` — and
performs no truncation; see the counterexample.) -/
theorem claim_C7_amended {V : Type} [DecidableEq V]
    (ops : List (EntityTree V × String × Option (List Nat) × String))
    (l : Nat) (hl : l ≠ 0) :
    ((apply_commits initial_manager ops).get_commit_log none none).length = ops.length ∧
    ((apply_commits initial_manager ops).get_commit_log none none).Pairwise
      (fun a b => b.timestamp ≤ a.timestamp) ∧
    (apply_commits initial_manager ops).get_commit_log none (some l) =
      ((apply_commits initial_manager ops).get_commit_log none none).take l := by
  refine ⟨?_, ?_, ?_⟩
  · rw [get_commit_log_none_none_length,
        apply_commits_commits_length ops initial_manager keys_fresh_initial]
    simp [initial_manager]
  · simp only [TreeHistoryManager.get_commit_log]
    exact pairwise_sort_by_timestamp_desc _
  · simp only [TreeHistoryManager.get_commit_log]
    rw [if_neg hl]

/-- C7 witness: one commit, limit 1. -/
theorem claim_C7_witness :
    ((apply_commits initial_manager
        [(ex_tree, "first commit", none, "main")]).get_commit_log none none).length = 1 ∧
    ((apply_commits initial_manager
        [(ex_tree, "first commit", none, "main")]).get_commit_log none none).Pairwise
      (fun a b => b.timestamp ≤ a.timestamp) ∧
    (apply_commits initial_manager
        [(ex_tree, "first commit", none, "main")]).get_commit_log none (some 1) =
      ((apply_commits initial_manager
        [(ex_tree, "first commit", none, "main")]).get_commit_log none none).take 1 :=
  claim_C7_amended [(ex_tree, "first commit", none, "main")] 1 (by decide)

/-- C7 counterexample: `get_commit_log` with the given limit 0 returns the
single stored snapshot untruncated (`if limit:` is false for 0), so the log
is not truncated to the limit when 0 is given. -/
theorem claim_C7_counterexample :
    ex_manager1.get_commit_log none (some 0) = ex_manager1.get_commit_log none none ∧
    (ex_manager1.get_commit_log none (some 0)).length = 1 ∧
    (ex_manager1.get_commit_log none (some 0)).length ≠ 0 :=
  ⟨by decide, by decide, by decide⟩

/-- C2 counterexample: with `auto_commit` enabled, a registered graph and
three buffered mutation events, no auto-commit has fired — the source
compares the buffer length against the hard-coded literal 10
(`if len(events) >= 10`), not against any configured threshold — so the
commit count is still 1 (the initial commit) and the buffer holds 3 events,
refuting the spec scenario (threshold 3 → 2 commits, buffer 0). -/
theorem claim_C2_counterexample :
    (ex_obs_after 3).history_manager.commits.length = 1 ∧
    ((dictGet (ex_obs_after 3).pending_events 0).getD []).length = 3 ∧
    ¬((ex_obs_after 3).history_manager.commits.length = 2 ∧
      ((dictGet (ex_obs_after 3).pending_events 0).getD []).length = 0) :=
  ⟨by decide, by decide, by decide⟩

/-- C2 amended: the auto-commit threshold is the hard-coded 10 (there is no
threshold parameter; the only constructor flag is `auto_commit`).  With
`auto_commit` on and the root's live tree registered, the `notify` that makes
the buffer reach 10 commits the registered tree under a fresh commit id with
the auto-generated message, and resets the buffer to empty. -/
theorem claim_C2_amended {V : Type} [DecidableEq V] (obs : TreeChangeObserver V)
    (ev : TreeEvent V) (tid : Nat) (tree : EntityTree V)
    (hauto : obs.auto_commit = true)
    (htid : ev.tree_id = some tid)
    (htree : dictGet obs.current_trees tid = some tree)
    (hfresh : keys_fresh obs.history_manager)
    (hlen : ((dictGet obs.pending_events tid).getD []).length = 9) :
    dictGet (obs.notify ev).pending_events tid = some [] ∧
    (obs.notify ev).history_manager.commits.length =
      obs.history_manager.commits.length + 1 ∧
    ∃ snap, dictGet (obs.notify ev).history_manager.commits
        obs.history_manager.next_id = some snap ∧
      snap.message = "Auto-commit: " ++ toString (10 : Nat) ++ " changes" ∧
      snap.tree = tree := by
  have hnext : obs.history_manager.next_id ∉ dictKeys obs.history_manager.commits :=
    fun hmem => Nat.lt_irrefl _ (hfresh _ hmem)
  have hbuf : dictGet (dictInsert obs.pending_events tid
      (((dictGet obs.pending_events tid).getD []) ++ [ev])) tid =
      some (((dictGet obs.pending_events tid).getD []) ++ [ev]) :=
    dictGet_dictInsert_self _ _ _
  have hlen10 : ((((dictGet obs.pending_events tid).getD []) ++ [ev])).length = 10 := by
    rw [List.length_append, hlen]
    rfl
  simp only [TreeChangeObserver.notify, htid, hauto, if_true,
    TreeChangeObserver.auto_commit_changes, hbuf, Option.getD_some, hlen10,
    TreeChangeObserver.commit_current_state, htree, TreeHistoryManager.commit_tree,
    dictGet_dictInsert_self, le_refl, if_pos]
  refine ⟨trivial, ?_, ⟨_, rfl, rfl, rfl⟩⟩
  rw [length_dictInsert_of_mem _ ((mem_dictKeys_dictInsert _ _ _ _).mpr (Or.inl rfl))]
  exact length_dictInsert_of_not_mem _ hnext

/-- C2 witness: after registration and 9 buffered events, the 10th `notify`
fires the auto-commit — the buffer resets to empty, the commit count rises
from 1 to 2, and the new snapshot carries the auto-generated message and the
registered live tree. -/
theorem claim_C2_witness :
    dictGet ((ex_obs_after 9).notify ex_event).pending_events 0 = some [] ∧
    ((ex_obs_after 9).notify ex_event).history_manager.commits.length =
      (ex_obs_after 9).history_manager.commits.length + 1 ∧
    ∃ snap, dictGet ((ex_obs_after 9).notify ex_event).history_manager.commits
        (ex_obs_after 9).history_manager.next_id = some snap ∧
      snap.message = "Auto-commit: " ++ toString (10 : Nat) ++ " changes" ∧
      snap.tree = ex_tree :=
  claim_C2_amended (ex_obs_after 9) ex_event 0 ex_tree (by decide) rfl (by decide)
    (by unfold keys_fresh; decide) (by decide)
